import Mathlib

/-
Verification development for the DECODE (deepsmlm) repository.

Part I embeds the utility modules that are present in the source tree
(deepsmlm/utils/emitter_io.py and deepsmlm/utils/model_io.py) as pure
Lean functions: Python floats become rationals, Python dict access that
can raise KeyError becomes Except, the mutable dict heap of save_csv
becomes an explicit list-indexed store, and wall-clock time becomes an
explicit argument.

Part II models the cubic-spline PSF engine (forward rendering, analytic
derivatives, Fisher information and CRLB).  The engine itself
(deepsmlm/generic/psf_kernel.py and the spline backend) is not part of
the source files; it is modelled from the specification, as marked on
each definition.
-/

namespace DeepSMLM

/-- Python exceptions that the embedded I/O code can raise. -/
inductive PyErr where
  | keyError (key : String)
  | indexError
  | invalidRef
deriving DecidableEq, Repr

/-- A parsed CSV file (the pandas DataFrame of load_csv), modelled as its
named numeric columns.  Column access `data[c]` raises KeyError when the
column is absent, which `dfCol` mirrors. -/
abbrev DataFrame := List (String × List ℚ)

/-- `data[c]` on a DataFrame: the column named `c`, or KeyError. -/
def dfCol (df : DataFrame) (c : String) : Except PyErr (List ℚ) :=
  match df.lookup c with
  | some v => .ok v
  | none => .error (.keyError c)

/-- `mapping[k]` on a Python dict of strings: the value, or KeyError. -/
def dictGetStr (m : List (String × String)) (k : String) : Except PyErr String :=
  match m.lookup k with
  | some v => .ok v
  | none => .error (.keyError k)

/-- The default column mapping of load_csv
(`{'x': 'x', 'y': 'y', 'z': 'z', 'phot': 'phot'}`). -/
def defaultMapping : List (String × String) :=
  [("x", "x"), ("y", "y"), ("z", "z"), ("phot", "phot")]

/-- The dictionary returned by load_csv. -/
structure LoadedEmitters where
  xyz : List (ℚ × ℚ × ℚ)
  phot : List ℚ
  frame_ix : List ℤ
  ident : Option (List ℤ)

/-- Embedding of `load_csv` (src/deepsmlm/utils/emitter_io.py).  Column
lookups follow the evaluation order of the Python source: the x/y/z
columns inside `torch.stack`, then `phot`, then the unconditional
`mapping['frame_ix']` lookup, then the optional `id` column.  Casting
`.long()` is modelled by the floor of the rational column values. -/
def load_csv (df : DataFrame) (mapping : Option (List (String × String))) :
    Except PyErr LoadedEmitters :=
  let m := mapping.getD defaultMapping
  match dictGetStr m "x" with
  | .error e => .error e
  | .ok xk =>
  match dfCol df xk with
  | .error e => .error e
  | .ok xs =>
  match dictGetStr m "y" with
  | .error e => .error e
  | .ok yk =>
  match dfCol df yk with
  | .error e => .error e
  | .ok ys =>
  match dictGetStr m "z" with
  | .error e => .error e
  | .ok zk =>
  match dfCol df zk with
  | .error e => .error e
  | .ok zs =>
  match dictGetStr m "phot" with
  | .error e => .error e
  | .ok pk =>
  match dfCol df pk with
  | .error e => .error e
  | .ok ps =>
  match dictGetStr m "frame_ix" with
  | .error e => .error e
  | .ok fk =>
  match dfCol df fk with
  | .error e => .error e
  | .ok fs =>
  match m.lookup "id" with
  | some ik =>
    (match dfCol df ik with
     | .error e => .error e
     | .ok iv =>
       .ok { xyz := (xs.zip (ys.zip zs)).map fun p => (p.1, p.2.1, p.2.2),
             phot := ps,
             frame_ix := fs.map fun q => ⌊q⌋,
             ident := some (iv.map fun q => ⌊q⌋) })
  | none =>
    .ok { xyz := (xs.zip (ys.zip zs)).map fun p => (p.1, p.2.1, p.2.2),
          phot := ps,
          frame_ix := fs.map fun q => ⌊q⌋,
          ident := none }

/-- A torch tensor or numpy array value held in an emitter dictionary:
one- or two-dimensional numeric data. -/
inductive TArr where
  | one (xs : List ℚ)
  | two (xs : List (List ℚ))
deriving DecidableEq, Repr

/-- A value of the emitter dictionary: the same numeric data, tagged as a
torch tensor or as a numpy array (`.numpy()` conversion switches the
tag). -/
inductive PyVal where
  | torch (t : TArr)
  | np (t : TArr)
deriving DecidableEq, Repr

/-- A Python dict mapping string keys to tensor values, in insertion
order. -/
abbrev PyDict := List (String × PyVal)

/-- The store of dict objects; an address is an index into the list.
`copy.deepcopy` allocates a fresh address, in-place dict mutation
rewrites the cell at an address. -/
abbrev Heap := List PyDict

/-- Embedding of the inner `convert_dict_torch_numpy` of save_csv:
every torch tensor value is replaced by its numpy conversion, other
values are left alone; keys and order are unchanged. -/
def convert_dict_torch_numpy (d : PyDict) : PyDict :=
  d.map fun kv =>
    match kv.2 with
    | .torch t => (kv.1, .np t)
    | v => (kv.1, v)

/-- `d.pop(k)`: the value at the first occurrence of key `k` together
with the dict with that entry removed, or KeyError. -/
def dict_pop (d : PyDict) (k : String) : Except PyErr (PyVal × PyDict) :=
  match d.lookup k with
  | some v => .ok (v, d.eraseP (fun kv => kv.1 == k))
  | none => .error (.keyError k)

/-- `t[:, j]`: column j of a two-dimensional array (IndexError on
one-dimensional data, as in numpy). -/
def tcol (v : PyVal) (j : ℕ) : Except PyErr PyVal :=
  match v with
  | .np (.two rows) => .ok (.np (.one (rows.map fun r => r.getD j 0)))
  | .torch (.two rows) => .ok (.torch (.one (rows.map fun r => r.getD j 0)))
  | _ => .error .indexError

/-- Embedding of the inner `change_to_one_dim` of save_csv, as a state
transformer on the dict it mutates: it pops 'xyz' and 'xyz_cr' from the
dict and builds a fresh dict with per-axis columns first, the remaining
entries next, and the per-axis CRLB columns last.  The first component
is the dict after its in-place pops (also on the error paths), the
second the result. -/
def change_to_one_dim (d : PyDict) : PyDict × Except PyErr PyDict :=
  match dict_pop d "xyz" with
  | .error e => (d, .error e)
  | .ok (xyz, d1) =>
    match dict_pop d1 "xyz_cr" with
    | .error e => (d1, .error e)
    | .ok (xyz_cr, d2) =>
      match tcol xyz 0, tcol xyz 1, tcol xyz 2 with
      | .ok x, .ok y, .ok z =>
        match tcol xyz_cr 0, tcol xyz_cr 1, tcol xyz_cr 2 with
        | .ok xcr, .ok ycr, .ok zcr =>
          (d2, .ok ([("x", x), ("y", y), ("z", z)] ++ d2 ++
                    [("x_cr", xcr), ("y_cr", ycr), ("z_cr", zcr)]))
        | _, _, _ => (d2, .error .indexError)
      | _, _, _ => (d2, .error .indexError)

/-- Embedding of `save_csv` (src/deepsmlm/utils/emitter_io.py) over the
dict store.  `a` is the caller's dict address.  `copy.deepcopy(data)`
allocates the copy at the fresh address `h.length`; the in-place
conversion and pops then act only on that fresh cell.  Returns the
final store and the flat dict handed to `pd.DataFrame.from_dict`. -/
def save_csv (h : Heap) (a : ℕ) : Heap × Except PyErr PyDict :=
  match h.get? a with
  | none => (h, .error .invalidRef)
  | some d =>
    let copy := convert_dict_torch_numpy d
    let r := change_to_one_dim copy
    (h ++ [r.1], r.2)

/-- Constructor arguments of LoadSaveModel
(src/deepsmlm/utils/model_io.py) that the save path reads:
`name_time_interval` (seconds), `better_th`, `max_files`. -/
structure LoadSaveCfg where
  name_time_interval : ℕ
  better_th : ℚ
  max_files : ℤ

/-- Mutable fields of LoadSaveModel that `save` touches.
`best_metric_val` is `math.inf` initially, modelled as `none`. -/
structure LoadSaveState where
  output_file_suffix : ℤ
  new_name_time : ℕ
  best_metric_val : Option ℚ
deriving DecidableEq, Repr

/-- State after `__init__`: suffix -1 (the comment in the source says
"because will be increased to one in the first round"), name-change
timestamp 0, best metric `math.inf`. -/
def initLoadSaveState : LoadSaveState :=
  { output_file_suffix := -1, new_name_time := 0, best_metric_val := none }

/-- The suffix update of `save`: increment, wrapping to 0 whenever the
incremented value exceeds `max_files - 1`. -/
def bump_suffix (cfg : LoadSaveCfg) (s : ℤ) : ℤ :=
  if s + 1 > cfg.max_files - 1 then 0 else s + 1

/-- One call to `LoadSaveModel.save` (src/deepsmlm/utils/model_io.py).
`now` is the value of `time.time()` during the call, `metric_val` the
optional metric.  `metric_val / math.inf` is 0 for any finite metric.
Returns the new state and `some s` when the file-writing step runs with
suffix `s`, `none` when the not-better early return is taken.  The
`_last_saved` timestamp is not modelled; nothing reads it. -/
def save_step (cfg : LoadSaveCfg) (st : LoadSaveState) (now : ℕ)
    (metric_val : Option ℚ) : LoadSaveState × Option ℤ :=
  match metric_val with
  | some m =>
    let ok : Bool :=
      match st.best_metric_val with
      | none => decide ((0 : ℚ) ≤ 1 - cfg.better_th)
      | some b => decide (m / b ≤ 1 - cfg.better_th)
    if ok then
      let st1 := { st with best_metric_val := some m }
      let st2 :=
        if now > st1.new_name_time + cfg.name_time_interval then
          { st1 with output_file_suffix := bump_suffix cfg st1.output_file_suffix,
                     new_name_time := now }
        else st1
      (st2, some st2.output_file_suffix)
    else (st, none)
  | none =>
    let st2 := { st with output_file_suffix := bump_suffix cfg st.output_file_suffix,
                         new_name_time := now }
    (st2, some st2.output_file_suffix)

/-- A sequence of `save` calls starting from the freshly constructed
state; each input is the `time.time()` value and the metric of one
call.  Collects the suffixes of all file writes. -/
def run_saves (cfg : LoadSaveCfg) (inputs : List (ℕ × Option ℚ)) :
    LoadSaveState × List ℤ :=
  inputs.foldl
    (fun acc inp =>
      let r := save_step cfg acc.1 inp.1 inp.2
      (r.1, acc.2 ++ r.2.toList))
    (initLoadSaveState, [])

/-- The range claim on checkpoint suffixes as stated: every suffix that
reaches the file-writing step lies in [0, max_files - 1]. -/
def SuffixAlwaysInRange (cfg : LoadSaveCfg) (inputs : List (ℕ × Option ℚ)) : Prop :=
  ∀ w ∈ (run_saves cfg inputs).2, 0 ≤ w ∧ w ≤ cfg.max_files - 1

/-- Modelled from the spec: an emitter (§3 data model) of the PSF engine,
whose implementation (deepsmlm/generic/psf_kernel.py and the spline
backend) is not among the source files: continuous sub-pixel position,
photon count, background level and integer frame index. -/
structure Emitter where
  x : ℚ
  y : ℚ
  z : ℚ
  phot : ℚ
  bg : ℚ
  frame : ℤ
deriving DecidableEq, Repr

/-- Modelled from the spec: the cubic-spline PSF facade (§§3-4).
`coeff` is the calibration coefficient tensor indexed by x/y/z knot and
the 64 = 4x4x4 cubic power terms per voxel, with knot-grid dimensions
`nx, ny, nz`; `roi_h, roi_w` the fixed ROI size; `vx, vy, vz` the voxel
size; `ref0x, ref0y` the calibration anchor; `img_h, img_w` the frame
canvas shape. -/
structure CubicSplinePSF where
  nx : ℕ
  ny : ℕ
  nz : ℕ
  coeff : ℕ → ℕ → ℕ → ℕ → ℚ
  roi_h : ℕ
  roi_w : ℕ
  vx : ℚ
  vy : ℚ
  vz : ℚ
  ref0x : ℚ
  ref0y : ℚ
  img_h : ℕ
  img_w : ℕ

/-- Nearest integer pixel to a continuous coordinate. -/
def nearest_px (x : ℚ) : ℤ := ⌊x + 1 / 2⌋

/-- Modelled from the spec: the coordinate/ROI mapper (§4.2): the
nearest integer pixel center of the emitter, and the residual
sub-pixel offset shifted by the calibration anchor; the z coordinate is
mapped to a knot slice of the coefficient grid by the voxel size. -/
def place (psf : CubicSplinePSF) (e : Emitter) : (ℤ × ℤ) × (ℚ × ℚ × ℚ) :=
  let px := nearest_px e.x
  let py := nearest_px e.y
  let zc := e.z / psf.vz + (psf.nz : ℚ) / 2
  ((px, py), (e.x - px + psf.ref0x, e.y - py + psf.ref0y, zc - ⌊zc⌋))

/-- The z knot slice of an emitter (integer part of the mapped z
coordinate). -/
def z_slice (psf : CubicSplinePSF) (e : Emitter) : ℤ :=
  ⌊e.z / psf.vz + (psf.nz : ℚ) / 2⌋

/-- Whether ROI pixel (i, j) of an emitter lies inside the calibrated
coefficient grid; pixels outside evaluate to zero (silent clipping,
§4.2). -/
def in_support (psf : CubicSplinePSF) (e : Emitter) (i j : ℕ) : Bool :=
  decide (i < psf.nx ∧ j < psf.ny ∧ 0 ≤ z_slice psf e ∧ z_slice psf e < (psf.nz : ℤ))

/-- Modelled from the spec: tricubic interpolation (§4.3): the
coefficient polynomial of voxel (i, j, kz) evaluated at the fractional
offset; 64 power terms, power term index 16a + 4b + c for x-power a,
y-power b, z-power c. -/
def interp (psf : CubicSplinePSF) (e : Emitter) (i j : ℕ) : ℚ :=
  if in_support psf e i j then
    ∑ a ∈ Finset.range 4, ∑ b ∈ Finset.range 4, ∑ c ∈ Finset.range 4,
      psf.coeff i j (z_slice psf e).toNat (16 * a + 4 * b + c) *
        (place psf e).2.1 ^ a * (place psf e).2.2.1 ^ b * (place psf e).2.2.2 ^ c
  else 0

/-- Modelled from the spec: the closed-form partial derivative of the
interpolant with respect to the fractional x offset (§4.3: analytic
polynomial derivative, not finite differences). -/
def interp_dx (psf : CubicSplinePSF) (e : Emitter) (i j : ℕ) : ℚ :=
  if in_support psf e i j then
    ∑ a ∈ Finset.range 4, ∑ b ∈ Finset.range 4, ∑ c ∈ Finset.range 4,
      psf.coeff i j (z_slice psf e).toNat (16 * a + 4 * b + c) * (a : ℚ) *
        (place psf e).2.1 ^ (a - 1) * (place psf e).2.2.1 ^ b * (place psf e).2.2.2 ^ c
  else 0

/-- Modelled from the spec: analytic partial derivative of the
interpolant with respect to the fractional y offset. -/
def interp_dy (psf : CubicSplinePSF) (e : Emitter) (i j : ℕ) : ℚ :=
  if in_support psf e i j then
    ∑ a ∈ Finset.range 4, ∑ b ∈ Finset.range 4, ∑ c ∈ Finset.range 4,
      psf.coeff i j (z_slice psf e).toNat (16 * a + 4 * b + c) * (b : ℚ) *
        (place psf e).2.1 ^ a * (place psf e).2.2.1 ^ (b - 1) * (place psf e).2.2.2 ^ c
  else 0

/-- Modelled from the spec: analytic partial derivative of the
interpolant with respect to the fractional z offset. -/
def interp_dz (psf : CubicSplinePSF) (e : Emitter) (i j : ℕ) : ℚ :=
  if in_support psf e i j then
    ∑ a ∈ Finset.range 4, ∑ b ∈ Finset.range 4, ∑ c ∈ Finset.range 4,
      psf.coeff i j (z_slice psf e).toNat (16 * a + 4 * b + c) * (c : ℚ) *
        (place psf e).2.1 ^ a * (place psf e).2.2.1 ^ b * (place psf e).2.2.2 ^ (c - 1)
  else 0

/-- Modelled from the spec: the unit-photon intensity surface of one
ROI pixel (§4.3). -/
def roi_unit (psf : CubicSplinePSF) (e : Emitter) (i j : ℕ) : ℚ :=
  interp psf e i j

/-- Modelled from the spec: the rendered ROI value, the unit intensity
scaled by the photon count (§4.3); forward_rois takes no background
argument, so no background is added here. -/
def roi_val (psf : CubicSplinePSF) (e : Emitter) (i j : ℕ) : ℚ :=
  e.phot * roi_unit psf e i j

/-- Modelled from the spec: the five per-parameter sensitivities of one
ROI pixel (§4.3, §4.5), in parameter order x, y, z, photon, background:
the x/y/z channels are the analytic interpolant derivatives scaled by
photons and chain-ruled by the voxel size; the photon channel is the
unit intensity surface itself; the background channel is exactly 1 on
every in-support pixel and 0 elsewhere. -/
def drv_channel (psf : CubicSplinePSF) (e : Emitter) (c i j : ℕ) : ℚ :=
  match c with
  | 0 => e.phot * interp_dx psf e i j / psf.vx
  | 1 => e.phot * interp_dy psf e i j / psf.vy
  | 2 => e.phot * interp_dz psf e i j / psf.vz
  | 3 => roi_unit psf e i j
  | _ => if in_support psf e i j then 1 else 0

/-- Materialize an h x w pixel grid from a pixel function. -/
def mk_grid (h w : ℕ) (g : ℕ → ℕ → ℚ) : List (List ℚ) :=
  (List.range h).map fun i => (List.range w).map fun j => g i j

/-- Modelled from the spec: forward_rois on the scalar (CPU) backend
(§4.4, §5): the isolated ROI of each emitter, rendered one ROI at a
time by a sequential loop that appends to the output stack. -/
def forward_rois (psf : CubicSplinePSF) (em : List Emitter) : List (List (List ℚ)) :=
  em.foldl (fun acc e => acc ++ [mk_grid psf.roi_h psf.roi_w (roi_val psf e)]) []

/-- Modelled from the spec: forward_rois on the accelerated (CUDA)
backend (§5): every ROI evaluated independently in parallel, with no
shared mutable state among ROIs. -/
def forward_rois_cuda (psf : CubicSplinePSF) (em : List Emitter) : List (List (List ℚ)) :=
  em.map fun e => mk_grid psf.roi_h psf.roi_w (roi_val psf e)

/-- The 5-channel derivative stack of one emitter's ROI. -/
def drv_roi (psf : CubicSplinePSF) (e : Emitter) : List (List (List ℚ)) :=
  (List.range 5).map fun c => mk_grid psf.roi_h psf.roi_w (drv_channel psf e c)

/-- Modelled from the spec: derivative on the scalar backend (§4.5):
the stacked five per-parameter sensitivity maps per emitter, computed
sequentially, together with the rendered ROIs. -/
def derivative (psf : CubicSplinePSF) (em : List Emitter) :
    List (List (List (List ℚ))) × List (List (List ℚ)) :=
  (em.foldl (fun acc e => acc ++ [drv_roi psf e]) [], forward_rois psf em)

/-- Modelled from the spec: derivative on the accelerated backend (§5):
per-emitter derivative stacks evaluated independently in parallel. -/
def derivative_cuda (psf : CubicSplinePSF) (em : List Emitter) :
    List (List (List (List ℚ))) × List (List (List ℚ)) :=
  (em.map (drv_roi psf), forward_rois_cuda psf em)

/-- Modelled from the spec: the contribution of one emitter to canvas
pixel (u, v) (§4.2, §4.4): its ROI placed around the rounded pixel
center, silently clipped at the canvas border; pixels outside the ROI
window receive nothing. -/
def frame_contrib (psf : CubicSplinePSF) (e : Emitter) (u v : ℕ) : ℚ :=
  let px := (place psf e).1
  let i : ℤ := (u : ℤ) - (px.1 - (psf.roi_h : ℤ) / 2)
  let j : ℤ := (v : ℤ) - (px.2 - (psf.roi_w : ℤ) / 2)
  if 0 ≤ i ∧ i < (psf.roi_h : ℤ) ∧ 0 ≤ j ∧ j < (psf.roi_w : ℤ) then
    roi_val psf e i.toNat j.toNat
  else 0

/-- Modelled from the spec: one step of the scalar forward loop (§4.4):
the emitter's ROI is added into the frame-indexed canvas buffer at
frame index `e.frame - lo`; emitters whose frame index falls outside
the declared range are dropped rather than overflowing the buffer. -/
def place_emitter (psf : CubicSplinePSF) (lo : ℤ) (n_frames : ℕ)
    (buf : ℕ → ℕ → ℕ → ℚ) (e : Emitter) : ℕ → ℕ → ℕ → ℚ :=
  fun k u v =>
    if lo ≤ e.frame ∧ e.frame < lo + (n_frames : ℤ) then
      if (k : ℤ) = e.frame - lo then buf k u v + frame_contrib psf e u v else buf k u v
    else buf k u v

/-- Modelled from the spec: forward (full frames) on the scalar backend
(§4.4): a zero-initialized canvas stack of `n_frames` frames starting
at frame index `lo`, filled by a sequential loop over the emitters;
multiple emitters on one frame add linearly (superposition). -/
def forward (psf : CubicSplinePSF) (em : List Emitter) (lo : ℤ) (n_frames : ℕ) :
    List (List (List ℚ)) :=
  let buf := em.foldl (place_emitter psf lo n_frames) fun _ _ _ => 0
  (List.range n_frames).map fun k => mk_grid psf.img_h psf.img_w (buf k)

/-- Modelled from the spec: forward on the accelerated backend (§5):
every output pixel computed independently as the sum of the
contributions of the emitters assigned to its frame. -/
def forward_cuda (psf : CubicSplinePSF) (em : List Emitter) (lo : ℤ) (n_frames : ℕ) :
    List (List (List ℚ)) :=
  (List.range n_frames).map fun (k : ℕ) =>
    mk_grid psf.img_h psf.img_w fun u v =>
      ((em.filter fun e => e.frame = lo + (k : ℤ)).map fun e => frame_contrib psf e u v).sum

/-- Modelled from the spec: the generic frame router of the abstract PSF
facade (§4.4): renders, for each frame index in [lo, hi], the emitters
assigned to that frame with the variant's single-frame renderer. -/
def forward_single_frame_wrapper (fsf : List Emitter → List (List ℚ))
    (em : List Emitter) (lo hi : ℤ) : List (List (List ℚ)) :=
  (List.range (hi - lo + 1).toNat).map fun (k : ℕ) =>
    fsf (em.filter fun e => e.frame = lo + (k : ℤ))

/-- The single-frame renderer of the PseudoAbsPSF test double
(src/deepsmlm/test/test_psf_kernel.py): a constant 32x32 frame holding
the x coordinate of the first emitter, or a zero frame when no emitter
is assigned. -/
def pseudo_fsf (em : List Emitter) : List (List ℚ) :=
  match em with
  | [] => mk_grid 32 32 fun _ _ => 0
  | e :: _ => mk_grid 32 32 fun _ _ => e.x

/-- Modelled from the spec: the per-emitter 5x5 Fisher information
matrix (§4.5): entry (p, q) sums the product of the p-th and q-th
sensitivities over the ROI pixels, weighted by the inverse of the
Poisson-like variance model (modeled intensity plus background). -/
def fisher_mat (psf : CubicSplinePSF) (e : Emitter) : Matrix (Fin 5) (Fin 5) ℚ :=
  Matrix.of fun p q =>
    ∑ i ∈ Finset.range psf.roi_h, ∑ j ∈ Finset.range psf.roi_w,
      drv_channel psf e p.val i j * drv_channel psf e q.val i j /
        (roi_val psf e i j + e.bg)

/-- A 5x5 matrix as a nested list, row major. -/
def mat_to_lists (M : Matrix (Fin 5) (Fin 5) ℚ) : List (List ℚ) :=
  (List.finRange 5).map fun p => (List.finRange 5).map fun q => M p q

/-- Modelled from the spec: fisher (§4.5): the per-emitter Fisher
matrices together with the rendered ROIs. -/
def fisher (psf : CubicSplinePSF) (em : List Emitter) :
    List (List (List ℚ)) × List (List (List ℚ)) :=
  (em.map fun e => mat_to_lists (fisher_mat psf e), forward_rois psf em)

/-- Modelled from the spec: the default matrix-inversion strategy of
crlb, the adjugate-based inverse (zero for a singular matrix, so that
ill-conditioned Fisher matrices yield degenerate CRLB values rather
than raising, §4.5). -/
def mat_inv (M : Matrix (Fin 5) (Fin 5) ℚ) : Matrix (Fin 5) (Fin 5) ℚ :=
  (M.det)⁻¹ • M.adjugate

/-- Modelled from the spec: the alternate pseudo-inverse strategy
(torch.pinverse in the reference test), in normal-equation form
(Mt M)⁻¹ Mt. -/
def pinverse (M : Matrix (Fin 5) (Fin 5) ℚ) : Matrix (Fin 5) (Fin 5) ℚ :=
  mat_inv (M.transpose * M) * M.transpose

/-- The diagonal of a 5x5 matrix as a list. -/
def diag5 (M : Matrix (Fin 5) (Fin 5) ℚ) : List ℚ :=
  (List.finRange 5).map fun p => M p p

/-- Modelled from the spec: crlb with a pluggable matrix-inversion
strategy (§4.5): the diagonal of the inverted per-emitter Fisher
matrix, together with the rendered ROIs. -/
def crlb_with (psf : CubicSplinePSF) (em : List Emitter)
    (inversion : Matrix (Fin 5) (Fin 5) ℚ → Matrix (Fin 5) (Fin 5) ℚ) :
    List (List ℚ) × List (List (List ℚ)) :=
  (em.map fun e => diag5 (inversion (fisher_mat psf e)), forward_rois psf em)

/-- Modelled from the spec: crlb with the default inversion strategy. -/
def crlb (psf : CubicSplinePSF) (em : List Emitter) :
    List (List ℚ) × List (List (List ℚ)) :=
  crlb_with psf em mat_inv

/-- Modelled from the spec: the delta PSF variant (§8, §9): each
emitter is mapped to the pixel bin of the frame grid nearest to its
position; the extents define the grid-to-physical mapping.  DeltaPSF
of psf_kernel.py is not among the source files. -/
structure DeltaPSF where
  xmin : ℚ
  xmax : ℚ
  ymin : ℚ
  ymax : ℚ
  img_h : ℕ
  img_w : ℕ

/-- Pixel size of the delta PSF grid along the first axis. -/
def DeltaPSF.binx (p : DeltaPSF) : ℚ := (p.xmax - p.xmin) / p.img_h

/-- Pixel size of the delta PSF grid along the second axis. -/
def DeltaPSF.biny (p : DeltaPSF) : ℚ := (p.ymax - p.ymin) / p.img_w

/-- The grid bin holding a position: the histogram bin of the extents. -/
def DeltaPSF.bin_ix (p : DeltaPSF) (x y : ℚ) : ℤ × ℤ :=
  (⌊(x - p.xmin) / p.binx⌋, ⌊(y - p.ymin) / p.biny⌋)

/-- Write one emitter's weight into its bin of the pixel-grid function;
emitters outside the grid are dropped; a later emitter on the same bin
overwrites an earlier one. -/
def DeltaPSF.write (p : DeltaPSF) (g : ℕ → ℕ → ℚ) (ew : (ℚ × ℚ) × ℚ) : ℕ → ℕ → ℚ :=
  fun u v =>
    let b := p.bin_ix ew.1.1 ew.1.2
    if 0 ≤ b.1 ∧ b.1 < (p.img_h : ℤ) ∧ 0 ≤ b.2 ∧ b.2 < (p.img_w : ℤ) then
      if (u : ℤ) = b.1 ∧ (v : ℤ) = b.2 then ew.2 else g u v
    else g u v

/-- Modelled from the spec: the delta PSF single-frame renderer (§8
end-to-end scenario): a zero frame with each emitter's weight written
into its nearest pixel bin. -/
def DeltaPSF.forward_single (p : DeltaPSF) (em : List (ℚ × ℚ)) (weight : List ℚ) :
    List (List ℚ) :=
  mk_grid p.img_h p.img_w ((em.zip weight).foldl p.write fun _ _ => 0)

/-- Entry (i, j) of a pixel grid, 0 outside. -/
def at2 (l : List (List ℚ)) (i j : ℕ) : ℚ := (l.getD i []).getD j 0

/-- Entry (n, i, j) of a stack of pixel grids, 0 outside. -/
def at3 (l : List (List (List ℚ))) (n i j : ℕ) : ℚ := at2 (l.getD n []) i j

/-- Entry (n, c, i, j) of a stack of channel stacks, 0 outside. -/
def at4 (l : List (List (List (List ℚ)))) (n c i j : ℕ) : ℚ := at3 (l.getD n []) c i j

/-- Number of nonzero pixels of a grid. -/
def nonzero_count (l : List (List ℚ)) : ℕ :=
  (l.map fun row => (row.filter fun q => q ≠ 0).length).sum

/-- A small concrete spline PSF configuration used by witnesses:
two-knot coefficient grid, 2x2 ROI, 3x3 canvas. -/
def psfW : CubicSplinePSF :=
  { nx := 2, ny := 2, nz := 1, coeff := fun _ _ _ _ => 1,
    roi_h := 2, roi_w := 2, vx := 1, vy := 1, vz := 10,
    ref0x := 0, ref0y := 0, img_h := 3, img_w := 3 }

/-- Concrete emitters mirroring the frame-wrapper reference test:
frame indices 1 and -2 inside the declared range [-2, 1]. -/
def emW : List Emitter :=
  [⟨15, 15, 0, 1, 0, 1⟩, ⟨1 / 2, 3 / 10, 0, 1, 0, -2⟩]

/-- The concrete witness emitter. -/
def eW : Emitter := ⟨15, 15, 0, 1, 0, 1⟩

/-- The integer-pixel-size delta PSF of the reference test:
extents (-0.5, 31.5) on a 32x32 grid, pixel size 1. -/
def delta1W : DeltaPSF := ⟨-1 / 2, 63 / 2, -1 / 2, 63 / 2, 32, 32⟩

/-- The half-integer-pixel-size delta PSF of the reference test:
the same extents on a 64x64 grid, pixel size 1/2. -/
def delta05W : DeltaPSF := ⟨-1 / 2, 63 / 2, -1 / 2, 63 / 2, 64, 64⟩

/-- C8: with the mapping argument omitted (None), load_csv falls back to
the default mapping, which has no 'frame_ix' key; for every input file
the function raises a KeyError (either on a missing default column or,
once all four default columns resolve, on the unconditional
`mapping['frame_ix']` access) and never returns. -/
theorem load_csv_default_mapping_keyerror (df : DataFrame) :
    ∃ k, load_csv df none = .error (.keyError k) := by
  cases hx : df.lookup "x" with
  | none =>
    exact ⟨"x", by simp +decide [load_csv, defaultMapping, dictGetStr, dfCol, List.lookup, hx]⟩
  | some xs =>
    cases hy : df.lookup "y" with
    | none =>
      exact ⟨"y", by simp +decide [load_csv, defaultMapping, dictGetStr, dfCol, List.lookup, hx, hy]⟩
    | some ys =>
      cases hz : df.lookup "z" with
      | none =>
        exact ⟨"z", by
          simp +decide [load_csv, defaultMapping, dictGetStr, dfCol, List.lookup, hx, hy, hz]⟩
      | some zs =>
        cases hp : df.lookup "phot" with
        | none =>
          exact ⟨"phot", by
            simp +decide [load_csv, defaultMapping, dictGetStr, dfCol, List.lookup, hx, hy, hz, hp]⟩
        | some ps =>
          exact ⟨"frame_ix", by
            simp +decide [load_csv, defaultMapping, dictGetStr, dfCol, List.lookup, hx, hy, hz, hp]⟩

/-- C10: save_csv never mutates its caller's data: every dict cell that
existed before the call, including the caller's dict at address `a`
with its keys and tensor contents, is unchanged afterwards; the
in-place tensor conversion and the 'xyz'/'xyz_cr' pops act only on the
fresh deep copy. -/
theorem save_csv_preserves_caller_data (h : Heap) (a : ℕ) :
    (save_csv h a).1.take h.length = h ∧ (save_csv h a).1.get? a = h.get? a := by
  unfold save_csv
  cases hga : h.get? a with
  | none => exact ⟨by simp, hga⟩
  | some d =>
    have ha : a < h.length := by
      by_contra hlen
      rw [List.get?_eq_none.mpr (le_of_not_lt hlen)] at hga
      exact Option.noConfusion hga
    refine ⟨?_, ?_⟩
    · exact List.take_left h _
    · rw [List.get?_append ha, hga]

/-- The suffix update keeps the suffix inside [0, max_files - 1] whenever
max_files ≥ 1 and the previous suffix is at least -1. -/
theorem bump_suffix_range (cfg : LoadSaveCfg) (hmf : 1 ≤ cfg.max_files) (s : ℤ)
    (hs : -1 ≤ s) : 0 ≤ bump_suffix cfg s ∧ bump_suffix cfg s ≤ cfg.max_files - 1 := by
  unfold bump_suffix
  split <;> omega

/-- One save call keeps the suffix in [-1, max_files - 1], and any
written suffix is the state's suffix after the call. -/
theorem save_step_suffix_inv (cfg : LoadSaveCfg) (hmf : 1 ≤ cfg.max_files)
    (st : LoadSaveState) (now : ℕ) (metric : Option ℚ)
    (hlo : -1 ≤ st.output_file_suffix) (hhi : st.output_file_suffix ≤ cfg.max_files - 1) :
    (-1 ≤ (save_step cfg st now metric).1.output_file_suffix ∧
      (save_step cfg st now metric).1.output_file_suffix ≤ cfg.max_files - 1) ∧
    ∀ w ∈ (save_step cfg st now metric).2.toList, -1 ≤ w ∧ w ≤ cfg.max_files - 1 := by
  have hb := bump_suffix_range cfg hmf st.output_file_suffix hlo
  cases metric with
  | none =>
    dsimp only [save_step]
    refine ⟨⟨by omega, hb.2⟩, ?_⟩
    intro w hw
    simp only [Option.toList_some, List.mem_singleton] at hw
    subst hw
    exact ⟨by omega, hb.2⟩
  | some m =>
    dsimp only [save_step]
    split_ifs with h1 h2
    · dsimp only
      refine ⟨⟨by omega, hb.2⟩, ?_⟩
      intro w hw
      simp only [Option.toList_some, List.mem_singleton] at hw
      subst hw
      exact ⟨by omega, hb.2⟩
    · refine ⟨⟨hlo, hhi⟩, ?_⟩
      intro w hw
      simp only [Option.toList_some, List.mem_singleton] at hw
      subst hw
      exact ⟨hlo, hhi⟩
    · exact ⟨⟨hlo, hhi⟩, by intro w hw; simp at hw⟩

/-- Every run of save calls from a state with suffix in [-1, max_files-1]
keeps the suffix there and only writes suffixes from that range. -/
theorem run_saves_suffix_aux (cfg : LoadSaveCfg) (hmf : 1 ≤ cfg.max_files) :
    ∀ (inputs : List (ℕ × Option ℚ)) (st : LoadSaveState) (ws : List ℤ),
      -1 ≤ st.output_file_suffix → st.output_file_suffix ≤ cfg.max_files - 1 →
      (∀ w ∈ ws, -1 ≤ w ∧ w ≤ cfg.max_files - 1) →
      (∀ w ∈ (inputs.foldl
          (fun acc inp =>
            let r := save_step cfg acc.1 inp.1 inp.2
            (r.1, acc.2 ++ r.2.toList))
          (st, ws)).2, -1 ≤ w ∧ w ≤ cfg.max_files - 1) ∧
      -1 ≤ (inputs.foldl
          (fun acc inp =>
            let r := save_step cfg acc.1 inp.1 inp.2
            (r.1, acc.2 ++ r.2.toList))
          (st, ws)).1.output_file_suffix ∧
      (inputs.foldl
          (fun acc inp =>
            let r := save_step cfg acc.1 inp.1 inp.2
            (r.1, acc.2 ++ r.2.toList))
          (st, ws)).1.output_file_suffix ≤ cfg.max_files - 1 := by
  intro inputs
  induction inputs with
  | nil =>
    intro st ws hlo hhi hws
    exact ⟨hws, hlo, hhi⟩
  | cons i rest ih =>
    intro st ws hlo hhi hws
    have hstep := save_step_suffix_inv cfg hmf st i.1 i.2 hlo hhi
    simp only [List.foldl_cons]
    exact ih (save_step cfg st i.1 i.2).1 (ws ++ (save_step cfg st i.1 i.2).2.toList)
      hstep.1.1 hstep.1.2
      (by
        intro w hw
        rcases List.mem_append.mp hw with hw1 | hw2
        · exact hws w hw1
        · exact hstep.2 w hw2)

/-- C9 (amended): with integer max_files ≥ 1, every checkpoint suffix
that reaches the file-writing step lies in [-1, max_files - 1] (the
initial -1 can be written when the very first save skips the
time-gated update branch), and whenever the suffix-update branch does
execute from a suffix ≥ -1 the updated suffix lies in [0, max_files-1];
so at most max_files distinct non-negative suffixes are ever produced,
wrapping cyclically. -/
theorem save_suffix_range_amended (cfg : LoadSaveCfg) (hmf : 1 ≤ cfg.max_files)
    (inputs : List (ℕ × Option ℚ)) :
    (∀ w ∈ (run_saves cfg inputs).2, -1 ≤ w ∧ w ≤ cfg.max_files - 1) ∧
    (∀ s : ℤ, -1 ≤ s → 0 ≤ bump_suffix cfg s ∧ bump_suffix cfg s ≤ cfg.max_files - 1) := by
  constructor
  · exact (run_saves_suffix_aux cfg hmf inputs initLoadSaveState []
      (by norm_num [initLoadSaveState]) (by simp only [initLoadSaveState]; omega)
      (by intro w hw; simp at hw)).1
  · exact fun s hs => bump_suffix_range cfg hmf s hs

/-- Witness for the amended C9 theorem at a concrete configuration
(max_files = 3) and a concrete call sequence. -/
theorem save_suffix_range_amended_witness :
    ((1 : ℤ) ≤ 3) ∧
    ((∀ w ∈ (run_saves ⟨3600, 1 / 1000000, 3⟩ [(4000, none)]).2,
        -1 ≤ w ∧ w ≤ (3 : ℤ) - 1) ∧
     (∀ s : ℤ, -1 ≤ s → 0 ≤ bump_suffix ⟨3600, 1 / 1000000, 3⟩ s ∧
        bump_suffix ⟨3600, 1 / 1000000, 3⟩ s ≤ (3 : ℤ) - 1)) :=
  ⟨by norm_num, save_suffix_range_amended ⟨3600, 1 / 1000000, 3⟩ (by norm_num) [(4000, none)]⟩

/-- C9 counterexample: with max_files = 3 and the default interval and
threshold, a first save call carrying a metric at a time not exceeding
`name_time_interval` passes the always-true better-than-infinity gate,
skips the time-gated suffix update, and reaches the file-writing step
with the initial suffix -1 — outside the claimed range [0, max_files-1]. -/
theorem save_suffix_claim_counterexample :
    (1 : ℤ) ≤ 3 ∧
    ¬ SuffixAlwaysInRange ⟨3600, 1 / 1000000, 3⟩ [(0, some 1)] := by
  constructor
  · norm_num
  · intro hclaim
    have hok : (((1000000 : ℚ))⁻¹ ≤ 1) := by norm_num
    have hrun : (run_saves ⟨3600, 1 / 1000000, 3⟩ [(0, some 1)]).2 = [-1] := by
      simp [run_saves, save_step, initLoadSaveState, hok]
    have hmem : (-1 : ℤ) ∈ (run_saves ⟨3600, 1 / 1000000, 3⟩ [(0, some 1)]).2 := by
      rw [hrun]
      exact List.mem_singleton_self _
    have := (hclaim (-1) hmem).1
    omega

/-- A sequential fold that appends one result per element equals the
parallel map. -/
theorem foldl_append_eq_map {α β : Type} (f : α → β) :
    ∀ (l : List α) (acc : List β),
      l.foldl (fun a x => a ++ [f x]) acc = acc ++ l.map f := by
  intro l
  induction l with
  | nil => intro acc; simp
  | cons x xs ih => intro acc; simp [ih]

/-- Mapping a pointwise-constant function yields a replicate. -/
theorem map_eq_replicate {α β : Type} (f : α → β) (c : β) (hf : ∀ x, f x = c) :
    ∀ l : List α, l.map f = List.replicate l.length c := by
  intro l
  induction l with
  | nil => simp
  | cons x xs ih => simp [hf, ih, List.replicate_succ]

/-- The two forward_rois backends agree exactly. -/
theorem forward_rois_eq_cuda (psf : CubicSplinePSF) (em : List Emitter) :
    forward_rois psf em = forward_rois_cuda psf em := by
  unfold forward_rois forward_rois_cuda
  simpa using
    foldl_append_eq_map (fun e => mk_grid psf.roi_h psf.roi_w (roi_val psf e)) em []

/-- The two derivative backends agree exactly. -/
theorem derivative_eq_cuda (psf : CubicSplinePSF) (em : List Emitter) :
    derivative psf em = derivative_cuda psf em := by
  unfold derivative derivative_cuda
  rw [forward_rois_eq_cuda]
  rw [foldl_append_eq_map (drv_roi psf) em []]
  simp

/-- Unrolling the scalar frame loop: the buffer pixel after folding all
emitters equals its initial value plus the summed contributions of the
emitters assigned to that frame. -/
theorem foldl_place_emitter (psf : CubicSplinePSF) (lo : ℤ) (nf : ℕ) :
    ∀ (em : List Emitter) (buf : ℕ → ℕ → ℕ → ℚ) (k u v : ℕ), k < nf →
      (em.foldl (place_emitter psf lo nf) buf) k u v =
        buf k u v + ((em.filter fun e => e.frame = lo + (k : ℤ)).map
          fun e => frame_contrib psf e u v).sum := by
  intro em
  induction em with
  | nil => intro buf k u v hk; simp
  | cons e rest ih =>
    intro buf k u v hk
    rw [List.foldl_cons, ih (place_emitter psf lo nf buf e) k u v hk]
    simp only [place_emitter]
    by_cases hf : e.frame = lo + (k : ℤ)
    · have hin : lo ≤ e.frame ∧ e.frame < lo + (nf : ℤ) := by omega
      rw [List.filter_cons_of_pos (by simpa using hf)]
      rw [if_pos hin, if_pos (by omega), List.map_cons, List.sum_cons]
      ring
    · rw [List.filter_cons_of_neg (by simpa using hf)]
      by_cases hin : lo ≤ e.frame ∧ e.frame < lo + (nf : ℤ)
      · rw [if_pos hin, if_neg (by omega)]
      · rw [if_neg hin]

/-- Pointwise-equal pixel functions materialize to the same grid. -/
theorem mk_grid_congr {hh ww : ℕ} {g₁ g₂ : ℕ → ℕ → ℚ}
    (h : ∀ i j, g₁ i j = g₂ i j) : mk_grid hh ww g₁ = mk_grid hh ww g₂ := by
  unfold mk_grid
  apply List.map_congr_left
  intro i _
  apply List.map_congr_left
  intro j _
  exact h i j

/-- The two forward (full frame) backends agree exactly. -/
theorem forward_eq_cuda (psf : CubicSplinePSF) (em : List Emitter) (lo : ℤ) (nf : ℕ) :
    forward psf em lo nf = forward_cuda psf em lo nf := by
  unfold forward forward_cuda
  dsimp only
  apply List.map_congr_left
  intro k hk
  apply mk_grid_congr
  intro u v
  rw [foldl_place_emitter psf lo nf em _ k u v (List.mem_range.mp hk)]
  simp

/-- C1: for every emitter batch the scalar (CPU) backend and the
accelerated (CUDA) backend agree elementwise within 1e-7 absolute for
forward_rois, derivative and forward (full frames); in the exact
rational model the two backends coincide, so every elementwise
difference is 0 < 1e-7. -/
theorem cpu_cuda_backend_agreement (psf : CubicSplinePSF) (em : List Emitter) :
    (∀ n i j : ℕ,
      |at3 (forward_rois psf em) n i j - at3 (forward_rois_cuda psf em) n i j| <
        1 / 10000000) ∧
    (∀ n c i j : ℕ,
      |at4 (derivative psf em).1 n c i j - at4 (derivative_cuda psf em).1 n c i j| <
        1 / 10000000) ∧
    (∀ (lo : ℤ) (nf k u v : ℕ),
      |at3 (forward psf em lo nf) k u v - at3 (forward_cuda psf em lo nf) k u v| <
        1 / 10000000) := by
  refine ⟨?_, ?_, ?_⟩
  · intro n i j
    rw [forward_rois_eq_cuda]
    norm_num
  · intro n c i j
    rw [derivative_eq_cuda]
    norm_num
  · intro lo nf k u v
    rw [forward_eq_cuda]
    norm_num

/-- A materialized grid has its declared number of rows. -/
theorem mk_grid_length (hh ww : ℕ) (g : ℕ → ℕ → ℚ) : (mk_grid hh ww g).length = hh := by
  simp [mk_grid]

/-- Every row of a materialized grid has the declared width. -/
theorem mk_grid_map_length (hh ww : ℕ) (g : ℕ → ℕ → ℚ) :
    (mk_grid hh ww g).map List.length = List.replicate hh ww := by
  unfold mk_grid
  rw [List.map_map, map_eq_replicate _ ww (fun i => by simp [Function.comp]) (List.range hh)]
  simp

/-- A derivative stack has five channels. -/
theorem drv_roi_length (psf : CubicSplinePSF) (e : Emitter) :
    (drv_roi psf e).length = 5 := by
  simp [drv_roi]

/-- Each derivative channel has roi_h rows. -/
theorem drv_roi_map_length (psf : CubicSplinePSF) (e : Emitter) :
    (drv_roi psf e).map List.length = List.replicate 5 psf.roi_h := by
  unfold drv_roi
  rw [List.map_map,
    map_eq_replicate _ psf.roi_h (fun c => by simp [Function.comp, mk_grid_length])
      (List.range 5)]
  simp

/-- Each derivative channel has roi_h rows of width roi_w. -/
theorem drv_roi_map_map_length (psf : CubicSplinePSF) (e : Emitter) :
    (drv_roi psf e).map (List.map List.length) =
      List.replicate 5 (List.replicate psf.roi_h psf.roi_w) := by
  unfold drv_roi
  rw [List.map_map,
    map_eq_replicate _ (List.replicate psf.roi_h psf.roi_w)
      (fun c => by simp [Function.comp, mk_grid_map_length]) (List.range 5)]
  simp

/-- A listed 5x5 matrix has 5 rows. -/
theorem mat_to_lists_length (M : Matrix (Fin 5) (Fin 5) ℚ) :
    (mat_to_lists M).length = 5 := by
  simp [mat_to_lists]

/-- A listed 5x5 matrix has 5 rows of width 5. -/
theorem mat_to_lists_map_length (M : Matrix (Fin 5) (Fin 5) ℚ) :
    (mat_to_lists M).map List.length = List.replicate 5 5 := by
  unfold mat_to_lists
  rw [List.map_map,
    map_eq_replicate _ 5 (fun p => by simp [Function.comp]) (List.finRange 5)]
  simp

/-- A listed matrix diagonal has 5 entries. -/
theorem diag5_length (M : Matrix (Fin 5) (Fin 5) ℚ) : (diag5 M).length = 5 := by
  simp [diag5]

/-- C5: shape contracts of the batched API: derivative returns an
(N, 5, roi_h, roi_w) stack together with (N, roi_h, roi_w) ROIs,
fisher returns (N, 5, 5), crlb returns (N, 5), and forward_rois
returns (N, roi_h, roi_w), with the ROI size fixed at construction.
Shapes are stated as length equations on every nesting level. -/
theorem api_shape_contracts (psf : CubicSplinePSF) (em : List Emitter) :
    ((derivative psf em).1.length = em.length ∧
     (derivative psf em).1.map List.length = List.replicate em.length 5 ∧
     (derivative psf em).1.map (List.map List.length) =
       List.replicate em.length (List.replicate 5 psf.roi_h) ∧
     (derivative psf em).1.map (List.map (List.map List.length)) =
       List.replicate em.length (List.replicate 5 (List.replicate psf.roi_h psf.roi_w))) ∧
    ((derivative psf em).2.length = em.length ∧
     (derivative psf em).2.map List.length = List.replicate em.length psf.roi_h ∧
     (derivative psf em).2.map (List.map List.length) =
       List.replicate em.length (List.replicate psf.roi_h psf.roi_w)) ∧
    ((fisher psf em).1.length = em.length ∧
     (fisher psf em).1.map List.length = List.replicate em.length 5 ∧
     (fisher psf em).1.map (List.map List.length) =
       List.replicate em.length (List.replicate 5 5)) ∧
    ((crlb psf em).1.length = em.length ∧
     (crlb psf em).1.map List.length = List.replicate em.length 5) ∧
    ((forward_rois psf em).length = em.length ∧
     (forward_rois psf em).map List.length = List.replicate em.length psf.roi_h ∧
     (forward_rois psf em).map (List.map List.length) =
       List.replicate em.length (List.replicate psf.roi_h psf.roi_w)) := by
  have hd : (derivative psf em).1 = em.map (drv_roi psf) := by
    rw [derivative_eq_cuda]; rfl
  have hr : forward_rois psf em =
      em.map fun e => mk_grid psf.roi_h psf.roi_w (roi_val psf e) := by
    rw [forward_rois_eq_cuda]; rfl
  have hd2 : (derivative psf em).2 = forward_rois psf em := rfl
  refine ⟨⟨?_, ?_, ?_, ?_⟩, ⟨?_, ?_, ?_⟩, ⟨?_, ?_, ?_⟩, ⟨?_, ?_⟩, ⟨?_, ?_, ?_⟩⟩
  · rw [hd]; simp
  · rw [hd, List.map_map]
    exact map_eq_replicate _ 5 (fun e => by simp [Function.comp, drv_roi_length]) em
  · rw [hd, List.map_map]
    exact map_eq_replicate _ _ (fun e => by simp [Function.comp, drv_roi_map_length]) em
  · rw [hd, List.map_map]
    exact map_eq_replicate _ _ (fun e => by simp [Function.comp, drv_roi_map_map_length]) em
  · rw [hd2, hr]; simp
  · rw [hd2, hr, List.map_map]
    exact map_eq_replicate _ _ (fun e => by simp [Function.comp, mk_grid_length]) em
  · rw [hd2, hr, List.map_map]
    exact map_eq_replicate _ _ (fun e => by simp [Function.comp, mk_grid_map_length]) em
  · unfold fisher; simp
  · unfold fisher
    dsimp only
    rw [List.map_map]
    exact map_eq_replicate _ 5 (fun e => by simp [Function.comp, mat_to_lists_length]) em
  · unfold fisher
    dsimp only
    rw [List.map_map]
    exact map_eq_replicate _ _ (fun e => by simp [Function.comp, mat_to_lists_map_length]) em
  · unfold crlb crlb_with; simp
  · unfold crlb crlb_with
    dsimp only
    rw [List.map_map]
    exact map_eq_replicate _ 5 (fun e => by simp [Function.comp, diag5_length]) em
  · rw [hr]; simp
  · rw [hr, List.map_map]
    exact map_eq_replicate _ _ (fun e => by simp [Function.comp, mk_grid_length]) em
  · rw [hr, List.map_map]
    exact map_eq_replicate _ _ (fun e => by simp [Function.comp, mk_grid_map_length]) em

/-- The adjugate-based default inversion coincides with the matrix
inverse of the library. -/
theorem mat_inv_eq_nonsing_inv (M : Matrix (Fin 5) (Fin 5) ℚ) : mat_inv M = M⁻¹ := by
  unfold mat_inv
  rw [Matrix.inv_def, Ring.inverse_eq_inv]

/-- Over the exact rationals the normal-equation pseudo-inverse agrees
with the default inversion on every 5x5 matrix: for invertible input
both give the inverse, for singular input both give zero. -/
theorem pinverse_eq_mat_inv (M : Matrix (Fin 5) (Fin 5) ℚ) : pinverse M = mat_inv M := by
  unfold pinverse
  rw [mat_inv_eq_nonsing_inv, mat_inv_eq_nonsing_inv]
  by_cases h : IsUnit M.det
  · rw [Matrix.mul_inv_rev, Matrix.mul_assoc,
      Matrix.nonsing_inv_mul _ (by rwa [Matrix.det_transpose]), Matrix.mul_one]
  · have ht : ¬ IsUnit (M.transpose * M).det := by
      rw [Matrix.det_mul, Matrix.det_transpose]
      intro hu
      exact h (isUnit_of_mul_isUnit_left hu)
    rw [Matrix.nonsing_inv_apply_not_isUnit _ ht, Matrix.nonsing_inv_apply_not_isUnit _ h,
      Matrix.zero_mul]

/-- Each entry of the per-parameter tolerance vector of the reference
test is nonnegative. -/
theorem tol_getD_nonneg (c : ℕ) :
    0 ≤ ([1 / 10000, 1 / 10000, 1 / 10, 100, 1 / 1000] : List ℚ).getD c 0 := by
  rcases c with _ | _ | _ | _ | _ | c <;> norm_num [List.getD]

/-- C7: crlb takes a pluggable matrix-inversion strategy that is applied
to each per-emitter Fisher matrix; the CRLB with the default inversion
and with the alternate pseudo-inverse agree within the asymmetric
per-parameter absolute tolerances of the reference test (1e-4 for x and
y, 1e-1 for z, 1e2 for photons, 1e-3 for background), the x/y bound
being strictly tighter than the z bound; in the exact rational model
the two inversions coincide elementwise. -/
theorem crlb_inversion_agreement (psf : CubicSplinePSF) (em : List Emitter) :
    (∀ inversion, (crlb_with psf em inversion).1 =
      em.map fun e => diag5 (inversion (fisher_mat psf e))) ∧
    (crlb psf em = crlb_with psf em mat_inv) ∧
    (∀ n c : ℕ,
      |((crlb psf em).1.getD n []).getD c 0 -
        ((crlb_with psf em pinverse).1.getD n []).getD c 0| ≤
        ([1 / 10000, 1 / 10000, 1 / 10, 100, 1 / 1000] : List ℚ).getD c 0) ∧
    ((1 / 10000 : ℚ) < 1 / 10) := by
  have hpe : crlb_with psf em pinverse = crlb_with psf em mat_inv := by
    unfold crlb_with
    refine congrArg (fun l => (l, forward_rois psf em)) ?_
    apply List.map_congr_left
    intro e _
    rw [pinverse_eq_mat_inv]
  refine ⟨fun inversion => rfl, rfl, ?_, by norm_num⟩
  intro n c
  unfold crlb
  rw [hpe]
  simpa using tol_getD_nonneg c

/-- Default access into a mapped list, inside the range. -/
theorem getD_map_lt {α β : Type} (f : α → β) (l : List α) (n : ℕ) (hn : n < l.length)
    (d : β) : (l.map f).getD n d = f (l.get ⟨n, hn⟩) := by
  rw [List.getD_eq_getD_get?, List.get?_map, List.get?_eq_get hn]
  rfl

/-- Default access beyond the end of a list. -/
theorem getD_ge {α : Type} (l : List α) (n : ℕ) (hn : l.length ≤ n) (d : α) :
    l.getD n d = d := by
  rw [List.getD_eq_getD_get?, List.get?_eq_none.mpr hn]
  rfl

/-- Row i of a materialized grid through the default accessor. -/
theorem getD_mk_grid_row (hh ww : ℕ) (g : ℕ → ℕ → ℚ) (i : ℕ) :
    (mk_grid hh ww g).getD i [] =
      if i < hh then (List.range ww).map (fun j => g i j) else [] := by
  unfold mk_grid
  by_cases hi : i < hh
  · rw [if_pos hi, getD_map_lt _ _ i (by simpa using hi) []]
    simp
  · rw [if_neg hi, getD_ge _ _ (by simpa using le_of_not_lt hi)]

/-- Entry (i, j) of a materialized grid through the default-0 accessor:
the pixel function inside the grid, 0 outside. -/
theorem at2_mk_grid (hh ww : ℕ) (g : ℕ → ℕ → ℚ) (i j : ℕ) :
    at2 (mk_grid hh ww g) i j = if i < hh ∧ j < ww then g i j else 0 := by
  unfold at2
  rw [getD_mk_grid_row]
  by_cases hi : i < hh
  · rw [if_pos hi]
    by_cases hj : j < ww
    · rw [if_pos ⟨hi, hj⟩, getD_map_lt _ _ j (by simpa using hj) 0]
      simp
    · rw [if_neg (by tauto), getD_ge _ _ (by simpa using le_of_not_lt hj)]
  · rw [if_neg hi, if_neg (by tauto)]
    simp [List.getD]

/-- The background channel of the derivative stack is the in-support
indicator. -/
theorem drv_channel_bg (psf : CubicSplinePSF) (e : Emitter) (i j : ℕ) :
    drv_channel psf e 4 i j = if in_support psf e i j then 1 else 0 := rfl

/-- The background channel of one emitter's derivative stack, fully
characterized through the default-0 accessor. -/
theorem at3_drv_roi_bg (psf : CubicSplinePSF) (e : Emitter) (i j : ℕ) :
    at3 (drv_roi psf e) 4 i j =
      if i < psf.roi_h ∧ j < psf.roi_w then
        (if in_support psf e i j then 1 else 0) else 0 := by
  unfold at3 drv_roi
  rw [getD_map_lt _ _ 4 (by simp) []]
  rw [show (List.range 5).get ⟨4, by simp⟩ = 4 from by simp]
  rw [at2_mk_grid, drv_channel_bg]

/-- C2: the background channel of the derivative output (the last of
the 5 parameter channels) contains only the values 0 and 1: every
in-support (in-bounds) ROI pixel receives the unit background
derivative 1 and every other entry is exactly 0. -/
theorem derivative_bg_channel_zero_one (psf : CubicSplinePSF) (em : List Emitter) :
    (∀ n i j : ℕ,
      at4 (derivative psf em).1 n 4 i j = 0 ∨ at4 (derivative psf em).1 n 4 i j = 1) ∧
    (∀ (n : ℕ) (hn : n < em.length) (i j : ℕ), i < psf.roi_h → j < psf.roi_w →
      at4 (derivative psf em).1 n 4 i j =
        if in_support psf (em.get ⟨n, hn⟩) i j then 1 else 0) := by
  have hd : (derivative psf em).1 = em.map (drv_roi psf) := by
    rw [derivative_eq_cuda]; rfl
  constructor
  · intro n i j
    rw [hd]
    unfold at4
    by_cases hn : n < em.length
    · rw [getD_map_lt _ _ n hn []]
      rw [at3_drv_roi_bg]
      split_ifs <;> simp
    · rw [getD_ge _ n (by simpa using le_of_not_lt hn) []]
      left
      simp [at3, at2, List.getD]
  · intro n hn i j hi hj
    rw [hd]
    unfold at4
    rw [getD_map_lt _ _ n hn []]
    rw [at3_drv_roi_bg, if_pos ⟨hi, hj⟩]

/-- Witness for C2 at the concrete configuration: the single witness
emitter and the top-left ROI pixel. -/
theorem derivative_bg_channel_zero_one_witness :
    ((0 : ℕ) < 1 ∧ (0 : ℕ) < psfW.roi_h ∧ (0 : ℕ) < psfW.roi_w) ∧
    at4 (derivative psfW [eW]).1 0 4 0 0 =
      if in_support psfW eW 0 0 then 1 else 0 :=
  ⟨⟨by decide, by decide, by decide⟩,
   (derivative_bg_channel_zero_one psfW [eW]).2 0 (by decide) 0 0 (by decide) (by decide)⟩

/-- C3: frame attribution of forward is exact and order-independent:
the output always has exactly the declared number of frames (emitters
with out-of-range frame indices are dropped, never overflowing the
canvas stack, and removing them does not change the output); frame k
of the stack is exactly the superposition of the contributions of the
emitters whose frame index is ix_low + k, so an emitter contributes
only to its own frame; and a frame to which no emitter is assigned is
all zeros. -/
theorem forward_frame_attribution (psf : CubicSplinePSF) (em : List Emitter)
    (lo : ℤ) (nf : ℕ) :
    ((forward psf em lo nf).length = nf) ∧
    (forward psf em lo nf =
      forward psf (em.filter fun e => lo ≤ e.frame ∧ e.frame < lo + (nf : ℤ)) lo nf) ∧
    (∀ k : ℕ, k < nf →
      (forward psf em lo nf).getD k [] =
        mk_grid psf.img_h psf.img_w fun u v =>
          ((em.filter fun e => e.frame = lo + (k : ℤ)).map
            fun e => frame_contrib psf e u v).sum) ∧
    (∀ k : ℕ, k < nf → (∀ e ∈ em, e.frame ≠ lo + (k : ℤ)) →
      (forward psf em lo nf).getD k [] = mk_grid psf.img_h psf.img_w fun _ _ => 0) := by
  have h3 : ∀ k : ℕ, k < nf →
      (forward psf em lo nf).getD k [] =
        mk_grid psf.img_h psf.img_w fun u v =>
          ((em.filter fun e => e.frame = lo + (k : ℤ)).map
            fun e => frame_contrib psf e u v).sum := by
    intro k hk
    unfold forward
    dsimp only
    rw [getD_map_lt _ _ k (by simpa using hk) []]
    rw [show (List.range nf).get ⟨k, by simpa using hk⟩ = k from by simp]
    apply mk_grid_congr
    intro u v
    rw [foldl_place_emitter psf lo nf em _ k u v hk]
    simp
  refine ⟨by simp [forward], ?_, h3, ?_⟩
  · rw [forward_eq_cuda, forward_eq_cuda]
    unfold forward_cuda
    apply List.map_congr_left
    intro k hk
    apply mk_grid_congr
    intro u v
    have hfil : ((em.filter fun e =>
        decide (lo ≤ e.frame ∧ e.frame < lo + (nf : ℤ))).filter fun e =>
          decide (e.frame = lo + (k : ℤ))) =
        em.filter fun e => decide (e.frame = lo + (k : ℤ)) := by
      rw [List.filter_filter]
      apply List.filter_congr
      intro e _
      by_cases hf : e.frame = lo + (k : ℤ)
      · have hin : lo ≤ e.frame ∧ e.frame < lo + (nf : ℤ) := by
          have := List.mem_range.mp hk
          omega
        simp [hf, hin]
        exact List.mem_range.mp hk
      · simp [hf]
    rw [hfil]
  · intro k hk hnone
    rw [h3 k hk]
    apply mk_grid_congr
    intro u v
    rw [List.filter_eq_nil.mpr (by
      intro e he
      simpa using hnone e he)]
    simp

/-- Witness for C3 at the concrete configuration: the reference-test
emitters on frames 1 and -2 with declared range [-2, 1]; frame index
-1 (offset 1) has no emitter and renders all zeros. -/
theorem forward_frame_attribution_witness :
    ((1 : ℕ) < 4) ∧ (∀ e ∈ emW, e.frame ≠ (-2 : ℤ) + (1 : ℕ)) ∧
    ((forward psfW emW (-2) 4).getD 1 [] =
      mk_grid psfW.img_h psfW.img_w fun _ _ => 0) :=
  ⟨by decide, by decide,
   (forward_frame_attribution psfW emW (-2) 4).2.2.2 1 (by decide) (by decide)⟩

/-- The floor of a natural number plus one half. -/
theorem floor_add_half (b : ℕ) : ⌊(b : ℚ) + 1 / 2⌋ = (b : ℤ) := by
  rw [Int.floor_eq_iff]
  constructor <;> push_cast <;> linarith

/-- An emitter at the center of pixel (bx, bv) falls into bin (bx, bv). -/
theorem bin_ix_center (p : DeltaPSF) (x y : ℚ) (bx bv : ℕ)
    (hbinx : 0 < p.binx) (hbiny : 0 < p.biny)
    (hx : x = p.xmin + ((bx : ℚ) + 1 / 2) * p.binx)
    (hy : y = p.ymin + ((bv : ℚ) + 1 / 2) * p.biny) :
    p.bin_ix x y = ((bx : ℤ), (bv : ℤ)) := by
  unfold DeltaPSF.bin_ix
  have h0x : p.binx ≠ 0 := ne_of_gt hbinx
  have h0y : p.biny ≠ 0 := ne_of_gt hbiny
  have hex : (x - p.xmin) / p.binx = (bx : ℚ) + 1 / 2 := by
    rw [hx]
    field_simp
    ring
  have hey : (y - p.ymin) / p.biny = (bv : ℚ) + 1 / 2 := by
    rw [hy]
    field_simp
    ring
  rw [hex, hey, floor_add_half, floor_add_half]

/-- Writing one in-bounds emitter into the zero canvas produces the
one-pixel indicator grid function. -/
theorem write_center (p : DeltaPSF) (x y w : ℚ) (bx bv : ℕ)
    (hbin : p.bin_ix x y = ((bx : ℤ), (bv : ℤ)))
    (hbx : bx < p.img_h) (hbv : bv < p.img_w) :
    ∀ u v : ℕ, p.write (fun _ _ => 0) ((x, y), w) u v =
      if u = bx ∧ v = bv then w else 0 := by
  intro u v
  unfold DeltaPSF.write
  dsimp only
  rw [hbin]
  dsimp only
  rw [if_pos (by omega)]
  simp [Nat.cast_inj]

/-- The value of the map-then-filter row count on a nodup carrier with
the target present: exactly one nonzero survives. -/
theorem filter_ne_ite_single (w : ℚ) (hw : w ≠ 0) :
    ∀ (l : List ℕ) (b : ℕ), l.Nodup → b ∈ l →
      ((l.map fun v => if v = b then w else 0).filter fun q => q ≠ 0).length = 1 := by
  intro l
  induction l with
  | nil => intro b _ hb; cases hb
  | cons a t ih =>
    intro b hnd hb
    rw [List.map_cons]
    by_cases hab : a = b
    · subst hab
      rw [if_pos rfl, List.filter_cons_of_pos (by simp [hw])]
      have ht : (t.map fun v => if v = a then w else 0).filter (fun q => q ≠ 0) = [] := by
        apply List.filter_eq_nil.mpr
        intro q hq
        rcases List.mem_map.mp hq with ⟨v, hv, rfl⟩
        have hva : v ≠ a := by
          intro hva
          subst hva
          exact (List.nodup_cons.mp hnd).1 hv
        simp [hva]
      rw [List.length_cons, ht]
      rfl
    · rw [if_neg hab, List.filter_cons_of_neg (by simp)]
      rcases List.mem_cons.mp hb with hba | hbt
      · exact absurd hba.symm hab
      · exact ih b (List.nodup_cons.mp hnd).2 hbt

/-- Summing a one-hot indicator over a list counts the occurrences. -/
theorem sum_map_ite_count (b : ℕ) :
    ∀ l : List ℕ, (l.map fun u => if u = b then (1 : ℕ) else 0).sum = l.count b := by
  intro l
  induction l with
  | nil => simp
  | cons a t ih =>
    rw [List.map_cons, List.sum_cons, ih]
    by_cases ha : a = b <;> simp [ha, List.count_cons] <;> omega

/-- The one-pixel indicator grid has exactly one nonzero pixel. -/
theorem nonzero_count_delta (hh ww bx bv : ℕ) (w : ℚ) (hw : w ≠ 0)
    (hbx : bx < hh) (hbv : bv < ww) :
    nonzero_count (mk_grid hh ww fun u v => if u = bx ∧ v = bv then w else 0) = 1 := by
  unfold nonzero_count mk_grid
  rw [List.map_map]
  have hrows : (List.range hh).map
      ((fun row : List ℚ => (row.filter fun q => q ≠ 0).length) ∘
        fun i => (List.range ww).map fun j => if i = bx ∧ j = bv then w else 0) =
      (List.range hh).map fun u => if u = bx then 1 else 0 := by
    apply List.map_congr_left
    intro u _
    by_cases hu : u = bx
    · rw [if_pos hu]
      have hz : ((List.range ww).map fun j => if u = bx ∧ j = bv then w else 0) =
          (List.range ww).map fun j => if j = bv then w else 0 := by
        apply List.map_congr_left
        intro v _
        simp [hu]
      simp only [Function.comp_apply, hz]
      exact filter_ne_ite_single w hw (List.range ww) bv (List.nodup_range ww)
        (List.mem_range.mpr hbv)
    · rw [if_neg hu]
      have hz : ((List.range ww).map fun j => if u = bx ∧ j = bv then w else 0) =
          (List.range ww).map fun _ => (0 : ℚ) := by
        apply List.map_congr_left
        intro v _
        simp [hu]
      simp only [Function.comp_apply, hz]
      simp
  rw [hrows, sum_map_ite_count bx (List.range hh)]
  exact List.count_eq_one_of_mem (List.nodup_range hh) (List.mem_range.mpr hbx)

/-- C4: rendering one emitter placed at the center of pixel (bx, bv) of
the delta PSF grid produces a frame whose pixel (bx, bv) equals the
emitter's weight, with every other pixel exactly zero, hence (for
nonzero weight) exactly one nonzero pixel; the statement quantifies
over the extent/shape configuration, covering both the integer and the
half-integer pixel-size configurations of the same extents. -/
theorem delta_psf_single_emitter (p : DeltaPSF) (x y w : ℚ) (bx bv : ℕ)
    (hbinx : 0 < p.binx) (hbiny : 0 < p.biny)
    (hx : x = p.xmin + ((bx : ℚ) + 1 / 2) * p.binx)
    (hy : y = p.ymin + ((bv : ℚ) + 1 / 2) * p.biny)
    (hbx : bx < p.img_h) (hbv : bv < p.img_w) :
    at2 (p.forward_single [(x, y)] [w]) bx bv = w ∧
    (∀ u v : ℕ, u < p.img_h → v < p.img_w → ¬(u = bx ∧ v = bv) →
      at2 (p.forward_single [(x, y)] [w]) u v = 0) ∧
    (w ≠ 0 → nonzero_count (p.forward_single [(x, y)] [w]) = 1) := by
  have hbin := bin_ix_center p x y bx bv hbinx hbiny hx hy
  have hwr := write_center p x y w bx bv hbin hbx hbv
  have hfs : p.forward_single [(x, y)] [w] =
      mk_grid p.img_h p.img_w fun u v => if u = bx ∧ v = bv then w else 0 := by
    unfold DeltaPSF.forward_single
    apply mk_grid_congr
    intro u v
    rw [show ([(x, y)].zip [w]) = [((x, y), w)] from rfl, List.foldl_cons, List.foldl_nil]
    exact hwr u v
  refine ⟨?_, ?_, ?_⟩
  · rw [hfs, at2_mk_grid, if_pos ⟨hbx, hbv⟩, if_pos ⟨rfl, rfl⟩]
  · intro u v hu hv hne
    rw [hfs, at2_mk_grid, if_pos ⟨hu, hv⟩, if_neg hne]
  · intro hw
    rw [hfs]
    exact nonzero_count_delta p.img_h p.img_w bx bv w hw hbx hbv

/-- Witness for C4: the reference-test emitter (15, 15) with unit
weight at a pixel center of the integer-pixel configuration (bin
(15, 15)), and an emitter at (61/4, 61/4), a pixel center of the
half-integer configuration of the same extents (bin (31, 31)). -/
theorem delta_psf_single_emitter_witness :
    ((0 : ℚ) < delta1W.binx ∧
      (15 : ℚ) = delta1W.xmin + ((15 : ℚ) + 1 / 2) * delta1W.binx ∧
      (15 : ℕ) < delta1W.img_h) ∧
    (at2 (delta1W.forward_single [(15, 15)] [1]) 15 15 = 1) ∧
    ((0 : ℚ) < delta05W.binx ∧
      (61 / 4 : ℚ) = delta05W.xmin + ((31 : ℚ) + 1 / 2) * delta05W.binx ∧
      (31 : ℕ) < delta05W.img_h) ∧
    (at2 (delta05W.forward_single [(61 / 4, 61 / 4)] [1]) 31 31 = 1) :=
  ⟨⟨by norm_num [delta1W, DeltaPSF.binx], by norm_num [delta1W, DeltaPSF.binx],
    by norm_num [delta1W]⟩,
   (delta_psf_single_emitter delta1W 15 15 1 15 15
      (by norm_num [delta1W, DeltaPSF.binx]) (by norm_num [delta1W, DeltaPSF.biny])
      (by norm_num [delta1W, DeltaPSF.binx]) (by norm_num [delta1W, DeltaPSF.biny])
      (by norm_num [delta1W]) (by norm_num [delta1W])).1,
   ⟨by norm_num [delta05W, DeltaPSF.binx], by norm_num [delta05W, DeltaPSF.binx],
    by norm_num [delta05W]⟩,
   (delta_psf_single_emitter delta05W (61 / 4) (61 / 4) 1 31 31
      (by norm_num [delta05W, DeltaPSF.binx]) (by norm_num [delta05W, DeltaPSF.biny])
      (by norm_num [delta05W, DeltaPSF.binx]) (by norm_num [delta05W, DeltaPSF.biny])
      (by norm_num [delta05W]) (by norm_num [delta05W])).1⟩

end DeepSMLM
